import Mathlib

/-!
Verification of the relational-categorization evaluation core
(`relcat/relcat.py`) against its specification.

Real-valued program quantities are modelled as rationals (`ℚ`); Python's
float `%` with a positive divisor is modelled by the mathematical
floor-based modulus, and Python's `int()` truncation toward zero by
`pyInt`.  Fallible arithmetic (division that would raise
`ZeroDivisionError`) is modelled with `Option`.
-/

set_option linter.unusedSectionVars false

namespace Relcat

/-- Python `int()` : truncation toward zero. -/
def pyInt (q : ℚ) : ℤ := if 0 ≤ q then ⌊q⌋ else ⌈q⌉

/-- Python float `%` for the divisors used here (positive): `v - m * ⌊v / m⌋`. -/
def pymod (v m : ℚ) : ℚ := v - m * ⌊v / m⌋

/-- `periodic_boundary_conditions(value, bound)` from the source:
`bound - abs(value % (2 * bound) - bound)`. -/
def periodic_boundary_conditions (value bound : ℚ) : ℚ :=
  bound - |pymod value (2 * bound) - bound|

/-- `rescale_parameter` from the source: affine map from the search interval
onto the parameter interval. -/
def rescale_parameter (search_value min_param_value max_param_value
    min_search_value max_search_value : ℚ) : ℚ :=
  let scale := (max_param_value - min_param_value)
                / (max_search_value - min_search_value)
  let bias := min_param_value - scale * min_search_value
  scale * search_value + bias

/-- `math.ceil(n / 2)` for a natural `n`. -/
def ceilHalf (n : ℕ) : ℕ := (n + 1) / 2

section PymodLemmas

theorem pymod_nonneg (v m : ℚ) (hm : 0 < m) : 0 ≤ pymod v m := by
  unfold pymod
  have h := Int.sub_one_lt_floor (v / m)
  have h2 : (⌊v / m⌋ : ℚ) ≤ v / m := Int.floor_le _
  have : m * (⌊v / m⌋ : ℚ) ≤ m * (v / m) := by
    exact mul_le_mul_of_nonneg_left h2 (le_of_lt hm)
  have hmv : m * (v / m) = v := by field_simp
  linarith

theorem pymod_lt (v m : ℚ) (hm : 0 < m) : pymod v m < m := by
  unfold pymod
  have h : v / m < ⌊v / m⌋ + 1 := Int.lt_floor_add_one _
  have : m * (v / m) < m * ((⌊v / m⌋ : ℚ) + 1) := by
    exact mul_lt_mul_of_pos_left h hm
  have hmv : m * (v / m) = v := by field_simp
  nlinarith

theorem pymod_add_period (v m : ℚ) (hm : 0 < m) :
    pymod (v + m) m = pymod v m := by
  unfold pymod
  have : (v + m) / m = v / m + 1 := by field_simp
  rw [this, Int.floor_add_one]
  push_cast
  ring

end PymodLemmas

/-! ### Generic write lists

The Python decoder mutates numpy arrays cell by cell.  We model an array as
a function from its index type (`ℕ × ℕ` for matrices, `ℕ` for vectors) and a
loop body's sequence of assignments as an ordered list of `(cell, value)`
writes applied left to right (a later write overwrites an earlier one, as in
the source). -/

variable {κ : Type} [DecidableEq κ]

/-- Apply a list of single-cell writes to an array, in order. -/
def applyWrites (ws : List (κ × ℚ)) (M : κ → ℚ) : κ → ℚ :=
  ws.foldl (fun N w => fun a => if a = w.1 then w.2 else N a) M

theorem applyWrites_nil (M : κ → ℚ) : applyWrites ([] : List (κ × ℚ)) M = M := rfl

theorem applyWrites_cons (w : κ × ℚ) (ws : List (κ × ℚ)) (M : κ → ℚ) :
    applyWrites (w :: ws) M
      = applyWrites ws (fun a => if a = w.1 then w.2 else M a) := rfl

theorem applyWrites_append (l₁ l₂ : List (κ × ℚ)) (M : κ → ℚ) :
    applyWrites (l₁ ++ l₂) M = applyWrites l₂ (applyWrites l₁ M) := by
  unfold applyWrites
  exact List.foldl_append _ _ _ _

/-- A cell that no write targets keeps its initial value. -/
theorem applyWrites_not_mem (ws : List (κ × ℚ)) (M : κ → ℚ)
    (p : κ) (h : ∀ v, (p, v) ∉ ws) :
    applyWrites ws M p = M p := by
  induction ws generalizing M with
  | nil => rfl
  | cons w ws ih =>
      rw [applyWrites_cons]
      have hne : p ≠ w.1 := by
        intro hc
        exact h w.2 (by subst hc; simp [List.mem_cons])
      rw [ih]
      · simp [hne]
      · intro v hv
        exact h v (List.mem_cons_of_mem _ hv)

/-- If a cell is written and every write to that cell carries the same value,
the final array holds that value there. -/
theorem applyWrites_agree (ws : List (κ × ℚ)) (M : κ → ℚ)
    (p : κ) (v : ℚ) (hmem : (p, v) ∈ ws)
    (hag : ∀ q u, (q, u) ∈ ws → q = p → u = v) :
    applyWrites ws M p = v := by
  induction ws generalizing M with
  | nil => cases hmem
  | cons w ws ih =>
      rw [applyWrites_cons]
      by_cases hrest : ∃ u, (p, u) ∈ ws
      · obtain ⟨u, hu⟩ := hrest
        have huv : u = v := hag p u (List.mem_cons_of_mem _ hu) rfl
        subst huv
        exact ih _ hu (fun q u hq hqp => hag q u (List.mem_cons_of_mem _ hq) hqp)
      · have hwp : w = (p, v) := by
          rcases List.mem_cons.mp hmem with h | h
          · exact h.symm
          · exact absurd ⟨v, h⟩ hrest
        subst hwp
        rw [applyWrites_not_mem ws _ p (fun u hu => hrest ⟨u, hu⟩)]
        simp

/-! ### Mirror-paired write lists

Every assignment in the bilateral-symmetric decoder writes one free value to
a cell and to its mirror cell.  `pairWrites` renders such a loop: it walks
the iteration list, emits the two writes of each iteration, and threads the
source's `index_counter` (each iteration reads one genome entry and
increments the counter by one). -/

/-- Emit the two writes of each loop iteration (cell and mirror cell, same
value `w index_counter`), threading the counter.  Returns the write list and
the final counter. -/
def pairWrites {α : Type} (tgt : α → κ × κ) (w : ℕ → ℚ) :
    List α → ℕ → List (κ × ℚ) × ℕ
  | [], k => ([], k)
  | a :: rest, k =>
      let r := pairWrites tgt w rest (k + 1)
      (((tgt a).1, w k) :: ((tgt a).2, w k) :: r.1, r.2)

theorem pairWrites_counter {α : Type} (tgt : α → κ × κ) (w : ℕ → ℚ)
    (l : List α) (k : ℕ) : (pairWrites tgt w l k).2 = k + l.length := by
  induction l generalizing k with
  | nil => simp [pairWrites]
  | cons a rest ih => simp [pairWrites, ih]; omega

/-- A write list consisting of consecutive mirror pairs: each pair writes a
cell `p` in the domain `D` and its mirror `σ p`, with the same value. -/
def PairedList (σ : κ → κ) (D : κ → Prop) : List (κ × ℚ) → Prop
  | [] => True
  | (p, v) :: (q, u) :: rest => D p ∧ q = σ p ∧ u = v ∧ PairedList σ D rest
  | _ :: [] => False

theorem PairedList.append (σ : κ → κ) (D : κ → Prop) :
    ∀ l₁ l₂ : List (κ × ℚ), PairedList σ D l₁ → PairedList σ D l₂ →
      PairedList σ D (l₁ ++ l₂)
  | [], _, _, h₂ => h₂
  | (p, v) :: (q, u) :: rest, l₂, h₁, h₂ => by
      obtain ⟨hD, hq, hu, hrest⟩ := h₁
      exact ⟨hD, hq, hu, PairedList.append σ D rest l₂ hrest h₂⟩
  | _ :: [], _, h₁, _ => absurd h₁ (by simp [PairedList])

theorem pairWrites_paired {α : Type} (σ : κ → κ) (D : κ → Prop)
    (tgt : α → κ × κ) (w : ℕ → ℚ) (l : List α)
    (h : ∀ a ∈ l, D (tgt a).1 ∧ (tgt a).2 = σ (tgt a).1) :
    ∀ k, PairedList σ D (pairWrites tgt w l k).1 := by
  induction l with
  | nil => intro k; trivial
  | cons a rest ih =>
      intro k
      have ha := h a (List.mem_cons_self _ _)
      exact ⟨ha.1, ha.2, rfl, ih (fun b hb => h b (List.mem_cons_of_mem _ hb)) (k + 1)⟩

/-- `M` agrees with its mirror image on the domain `D`. -/
def SymmOn (σ : κ → κ) (D : κ → Prop) (M : κ → ℚ) : Prop :=
  ∀ p, D p → M (σ p) = M p

/-- Applying a mirror-paired write list preserves mirror symmetry, provided
the mirror is an involution on the domain. -/
theorem applyWrites_symm (σ : κ → κ) (D : κ → Prop)
    (hinv : ∀ p, D p → σ (σ p) = p) :
    ∀ ws : List (κ × ℚ), PairedList σ D ws →
      ∀ M : κ → ℚ, SymmOn σ D M → SymmOn σ D (applyWrites ws M)
  | [], _, M, hM => hM
  | (p, v) :: (q, u) :: rest, hws, M, hM => by
      obtain ⟨hDp, hq, hu, hrest⟩ := hws
      subst hq; subst hu
      rw [applyWrites_cons, applyWrites_cons]
      refine applyWrites_symm σ D hinv rest hrest _ ?_
      intro z hDz
      by_cases hzp : z = p
      · subst hzp
        by_cases hself : z = σ z
        · simp [← hself]
        · simp [Ne.symm hself, hself]
      · by_cases hzq : z = σ p
        · subst hzq
          rw [hinv p hDp]
          by_cases hself : σ p = p
          · simp [hself]
          · simp [hself, Ne.symm hself]
        · have h₁ : σ z ≠ σ p := by
            intro hc
            exact hzp (by rw [← hinv z hDz, hc, hinv p hDp])
          have h₂ : σ z ≠ p := by
            intro hc
            exact hzq (by rw [← hinv z hDz, hc])
          simp only [h₁, h₂, hzp, hzq, if_false]
          exact hM z hDz
  | _ :: [], hws, _, _ => absurd hws (by simp [PairedList])

/-! ### Configuration: derived parameter counts (`__init__`)

`R` is `num_rays`, `I` is `num_interneurons`; `circuit_size = I + 2`. -/

/-- Bilateral-symmetric sensor-weight count (`__init__`, symmetric branch). -/
def num_sensor_weights_sym (R I : ℕ) : ℕ :=
  if R % 2 = 0 then R / 2 * I else (R - 1) / 2 * I + ceilHalf I

/-- Bilateral-symmetric circuit-weight count:
motor + loops + cross connections + side connections. -/
def num_circuit_weights_sym (I : ℕ) : ℕ :=
  I + ceilHalf I + (I / 2) ^ 2 + ceilHalf I * (ceilHalf I - 1)

/-- Bilateral-symmetric total genome length. -/
def num_parameters_sym (R I : ℕ) : ℕ :=
  num_sensor_weights_sym R I + num_circuit_weights_sym I
    + ceilHalf I + ceilHalf I + 2

/-- Asymmetric sensor-weight count (`__init__`, default branch). -/
def num_sensor_weights_asym (R I : ℕ) : ℕ := I * R

/-- Asymmetric circuit-weight count. -/
def num_circuit_weights_asym (I : ℕ) : ℕ := I * (I + 2)

/-- Asymmetric total genome length. -/
def num_parameters_asym (R I : ℕ) : ℕ :=
  num_sensor_weights_asym R I + num_circuit_weights_asym I + (I + 2) + (I + 2)

/-- Rescaling bounds of the configuration (weight/bias/tau parameter ranges
and the search-value range). -/
structure ScaleCfg where
  min_weight : ℚ
  max_weight : ℚ
  min_bias : ℚ
  max_bias : ℚ
  min_tau : ℚ
  max_tau : ℚ
  min_search : ℚ
  max_search : ℚ

/-- The configuration defaults from `__init__`. -/
def defaultScaleCfg : ScaleCfg :=
  ⟨-16, 16, -16, 16, 1, 30, 0, 1⟩

/-- Reading entry `k` of a genome segment after slicing at `off` and applying
`periodic_boundary_conditions(·, 1)` then `rescale_parameter` elementwise
(as the decoder does to each numpy slice). -/
def wrapRescale (x : ℕ → ℚ) (off : ℕ) (lo hi minS maxS : ℚ) : ℕ → ℚ :=
  fun k => rescale_parameter (periodic_boundary_conditions (x (off + k)) 1)
    lo hi minS maxS

/-- Row-major iteration order of a nested `for i in range m: for j in range n` loop. -/
def rowMajorIdx (m n : ℕ) : List (ℕ × ℕ) :=
  (List.range m).flatMap (fun i => (List.range n).map (fun j => (i, j)))

theorem mem_rowMajorIdx (m n : ℕ) (p : ℕ × ℕ) :
    p ∈ rowMajorIdx m n ↔ p.1 < m ∧ p.2 < n := by
  cases p with
  | mk a b =>
      simp only [rowMajorIdx, List.mem_flatMap, List.mem_map, List.mem_range]
      constructor
      · rintro ⟨i, hi, j, hj, hp⟩
        cases hp
        exact ⟨hi, hj⟩
      · rintro ⟨ha, hb⟩
        exact ⟨a, ha, b, hb, rfl⟩

/-! ### Genome decoder, bilateral-symmetric mode (`map_search_parameters`)

Write lists follow the source loops exactly, in source order, threading the
source's `index_counter` through `pairWrites`. -/

/-- Sensor-weight writes, symmetric mode: the mirrored-pair loop over
`i ∈ range(R/2), j ∈ range(I)`, then (odd `R`) the central-ray loop over
`j ∈ range(ceil(I/2))`.  Returns the writes and the final `index_counter`. -/
def sensorWritesSym (R I : ℕ) (sw : ℕ → ℚ) : List ((ℕ × ℕ) × ℚ) × ℕ :=
  let a := pairWrites
    (fun p => ((p.1, p.2), (R - 1 - p.1, I - 1 - p.2))) sw (rowMajorIdx (R / 2) I) 0
  if R % 2 = 1 then
    let b := pairWrites
      (fun j => ((R / 2, j), (R / 2, I - 1 - j))) sw (List.range (ceilHalf I)) a.2
    (a.1 ++ b.1, b.2)
  else a

/-- Circuit-weight writes, symmetric mode: interneuron-block mirrored pairs,
(odd `I`) central interneuron row, motor-column mirrored pairs, and (odd `I`)
central motor row, in source order. -/
def circuitWritesSym (I : ℕ) (cw : ℕ → ℚ) : List ((ℕ × ℕ) × ℚ) × ℕ :=
  let a := pairWrites
    (fun p => ((p.1, p.2), (I - 1 - p.1, I - 1 - p.2))) cw (rowMajorIdx (I / 2) I) 0
  let b := if I % 2 = 1 then
      pairWrites (fun j => ((I / 2, j), (I / 2, I - 1 - j))) cw
        (List.range (ceilHalf I)) a.2
    else ([], a.2)
  let c := pairWrites
    (fun p => ((p.1, I + p.2), (I - 1 - p.1, (I + 2) - 1 - p.2))) cw
    (rowMajorIdx (I / 2) 2) b.2
  let d := if I % 2 = 1 then
      pairWrites (fun j => ((I / 2, I + j), (I / 2, (I + 2) - 1 - j))) cw
        (List.range 1) c.2
    else ([], c.2)
  (a.1 ++ b.1 ++ c.1 ++ d.1, d.2)

/-- Bias/time-constant writes, symmetric mode, into a fresh `np.zeros`
vector of length `circuit_size`: mirrored interneuron pairs
`v[i] = v[I-1-i] = pars[i]` for `i ∈ range(ceil(I/2))`, then both motor
slots `v[-2], v[-1]` receive the last free value `pars[-1]` (the segment has
`ceil(circuit_size/2)` entries). -/
def halfVectorWrites (I : ℕ) (vp : ℕ → ℚ) : List (ℕ × ℚ) :=
  (pairWrites (fun i => (i, I - 1 - i)) vp (List.range (ceilHalf I)) 0).1
  ++ [(I, vp (ceilHalf (I + 2) - 1)), (I + 1, vp (ceilHalf (I + 2) - 1))]

/-- Decoded sensor-weight matrix, symmetric mode.  The collaborator's weight
arrays are freshly created per evaluation call and fully populated by the
decoder; we model them as starting from zero. -/
def sensorWeightsSym (R I : ℕ) (c : ScaleCfg) (x : ℕ → ℚ) : ℕ × ℕ → ℚ :=
  applyWrites
    (sensorWritesSym R I
      (wrapRescale x 0 c.min_weight c.max_weight c.min_search c.max_search)).1
    (fun _ => 0)

/-- Decoded internal-weight matrix, symmetric mode (columns `0..I-1` are the
interneuron block, columns `I, I+1` the two motor columns). -/
def circuitWeightsSym (R I : ℕ) (c : ScaleCfg) (x : ℕ → ℚ) : ℕ × ℕ → ℚ :=
  applyWrites
    (circuitWritesSym I
      (wrapRescale x (num_sensor_weights_sym R I)
        c.min_weight c.max_weight c.min_search c.max_search)).1
    (fun _ => 0)

/-- Decoded bias vector, symmetric mode. -/
def biasesSym (R I : ℕ) (c : ScaleCfg) (x : ℕ → ℚ) : ℕ → ℚ :=
  applyWrites
    (halfVectorWrites I
      (wrapRescale x (num_sensor_weights_sym R I + num_circuit_weights_sym I)
        c.min_bias c.max_bias c.min_search c.max_search))
    (fun _ => 0)

/-- Decoded time-constant vector, symmetric mode (its segment starts at
`bias_index_end = sensor + circuit + ceil(circuit_size/2)`). -/
def tausSym (R I : ℕ) (c : ScaleCfg) (x : ℕ → ℚ) : ℕ → ℚ :=
  applyWrites
    (halfVectorWrites I
      (wrapRescale x
        (num_sensor_weights_sym R I + num_circuit_weights_sym I + ceilHalf (I + 2))
        c.min_tau c.max_tau c.min_search c.max_search))
    (fun _ => 0)

/-- Number of genome entries the symmetric sensor loops consume
(final `index_counter`; counters do not depend on the genome values). -/
def sensorConsumedSym (R I : ℕ) : ℕ := (sensorWritesSym R I (fun _ => 0)).2

/-- Number of genome entries the symmetric circuit loops consume. -/
def circuitConsumedSym (I : ℕ) : ℕ := (circuitWritesSym I (fun _ => 0)).2

/-- Set of segment indices the symmetric bias/tau loops read:
`pars[i]` for `i ∈ range(ceil(I/2))` and the final entry `pars[-1]`. -/
def halfVectorUsedIndices (I : ℕ) : Finset ℕ :=
  Finset.range (ceilHalf I) ∪ {ceilHalf (I + 2) - 1}

/-! ### Genome decoder, asymmetric mode -/

/-- Sensor-weight writes, asymmetric mode:
`sensor_weights[i,j] = sw[I*i + j]` row-major over `R × I`. -/
def sensorWritesAsym (R I : ℕ) (sw : ℕ → ℚ) : List ((ℕ × ℕ) × ℚ) :=
  (rowMajorIdx R I).map (fun p => ((p.1, p.2), sw (I * p.1 + p.2)))

/-- Circuit-weight writes, asymmetric mode: the `I × I` interneuron block
`circuit_weights[i,j] = cw[I*i + j]`, then the motor columns
`circuit_weights[i, I+j] = cw[I*I + 2*i + j]`. -/
def circuitWritesAsym (I : ℕ) (cw : ℕ → ℚ) : List ((ℕ × ℕ) × ℚ) :=
  (rowMajorIdx I I).map (fun p => ((p.1, p.2), cw (I * p.1 + p.2)))
  ++ (rowMajorIdx I 2).map (fun p => ((p.1, I + p.2), cw (I * I + 2 * p.1 + p.2)))

/-- Decoded sensor-weight matrix, asymmetric mode. -/
def sensorWeightsAsym (R I : ℕ) (c : ScaleCfg) (x : ℕ → ℚ) : ℕ × ℕ → ℚ :=
  applyWrites
    (sensorWritesAsym R I
      (wrapRescale x 0 c.min_weight c.max_weight c.min_search c.max_search))
    (fun _ => 0)

/-- Decoded internal-weight matrix, asymmetric mode. -/
def circuitWeightsAsym (R I : ℕ) (c : ScaleCfg) (x : ℕ → ℚ) : ℕ × ℕ → ℚ :=
  applyWrites
    (circuitWritesAsym I
      (wrapRescale x (num_sensor_weights_asym R I)
        c.min_weight c.max_weight c.min_search c.max_search))
    (fun _ => 0)

/-- Decoded bias vector, asymmetric mode: `set_biases` receives the rescaled
bias slice itself, so entry `i` is the slice's entry `i`. -/
def biasesAsym (R I : ℕ) (c : ScaleCfg) (x : ℕ → ℚ) : ℕ → ℚ :=
  wrapRescale x (num_sensor_weights_asym R I + num_circuit_weights_asym I)
    c.min_bias c.max_bias c.min_search c.max_search

/-- Decoded time-constant vector, asymmetric mode. -/
def tausAsym (R I : ℕ) (c : ScaleCfg) (x : ℕ → ℚ) : ℕ → ℚ :=
  wrapRescale x
    (num_sensor_weights_asym R I + num_circuit_weights_asym I + (I + 2))
    c.min_tau c.max_tau c.min_search c.max_search

/-! ### Mirror maps of the bilateral-symmetric encoding -/

/-- Mirror of a sensor-weight cell: `(ray i, interneuron j) ↔ (R-1-i, I-1-j)`. -/
def sensorMirror (R I : ℕ) (p : ℕ × ℕ) : ℕ × ℕ := (R - 1 - p.1, I - 1 - p.2)

/-- Mirror of an internal-weight cell: rows mirror as `i ↔ I-1-i`;
interneuron columns as `j ↔ I-1-j`, the two motor columns as `I ↔ I+1`. -/
def circuitMirror (I : ℕ) (p : ℕ × ℕ) : ℕ × ℕ :=
  (I - 1 - p.1, if p.2 < I then I - 1 - p.2 else 2 * I + 1 - p.2)

/-- Mirror of a bias/time-constant index: `i ↔ I-1-i` for interneurons,
`I ↔ I+1` for the two motor slots. -/
def vectorMirror (I : ℕ) (i : ℕ) : ℕ :=
  if i < I then I - 1 - i else 2 * I + 1 - i

theorem sensorMirror_invol (R I : ℕ) (p : ℕ × ℕ)
    (h : p.1 < R ∧ p.2 < I) : sensorMirror R I (sensorMirror R I p) = p := by
  cases p
  simp only [sensorMirror, Prod.mk.injEq]
  omega

theorem circuitMirror_invol (I : ℕ) (p : ℕ × ℕ)
    (h : p.1 < I ∧ p.2 < I + 2) : circuitMirror I (circuitMirror I p) = p := by
  cases p with
  | mk a b =>
      simp only [circuitMirror]
      by_cases hb : b < I
      · simp only [hb, if_pos, Prod.mk.injEq]
        constructor <;> [omega; (rw [if_pos (by omega)]; omega)]
      · rw [if_neg hb, if_neg (by omega)]
        simp only [Prod.mk.injEq]
        omega

theorem vectorMirror_invol (I : ℕ) (i : ℕ) (h : i < I + 2) :
    vectorMirror I (vectorMirror I i) = i := by
  unfold vectorMirror
  by_cases hi : i < I
  · rw [if_pos hi, if_pos (by omega)]; omega
  · rw [if_neg hi, if_neg (by omega)]; omega

theorem sensorWritesSym_paired (R I : ℕ) (sw : ℕ → ℚ) :
    PairedList (sensorMirror R I) (fun p => p.1 < R ∧ p.2 < I)
      (sensorWritesSym R I sw).1 := by
  have hA : ∀ k, PairedList (sensorMirror R I) (fun p => p.1 < R ∧ p.2 < I)
      (pairWrites
        (fun p => ((p.1, p.2), (R - 1 - p.1, I - 1 - p.2))) sw
        (rowMajorIdx (R / 2) I) k).1 := by
    intro k
    refine pairWrites_paired _ _ _ _ _ (fun p hp => ?_) k
    rw [mem_rowMajorIdx] at hp
    dsimp only [sensorMirror]
    exact ⟨⟨by omega, hp.2⟩, rfl⟩
  by_cases hR : R % 2 = 1
  · simp only [sensorWritesSym, hR, if_pos]
    refine PairedList.append _ _ _ _ (hA 0) ?_
    refine pairWrites_paired _ _ _ _ _ (fun j hj => ?_) _
    rw [List.mem_range] at hj
    unfold ceilHalf at hj
    dsimp only [sensorMirror]
    refine ⟨⟨by omega, by omega⟩, ?_⟩
    rw [Prod.mk.injEq]
    exact ⟨by omega, rfl⟩
  · simp only [sensorWritesSym, hR, if_neg, ite_false]
    exact hA 0

theorem circuitWritesSym_paired (I : ℕ) (cw : ℕ → ℚ) :
    PairedList (circuitMirror I) (fun p => p.1 < I ∧ p.2 < I + 2)
      (circuitWritesSym I cw).1 := by
  have hA : ∀ k, PairedList (circuitMirror I) (fun p => p.1 < I ∧ p.2 < I + 2)
      (pairWrites
        (fun p => ((p.1, p.2), (I - 1 - p.1, I - 1 - p.2))) cw
        (rowMajorIdx (I / 2) I) k).1 := by
    intro k
    refine pairWrites_paired _ _ _ _ _ (fun p hp => ?_) k
    rw [mem_rowMajorIdx] at hp
    dsimp only [circuitMirror]
    rw [if_pos hp.2]
    exact ⟨⟨by omega, by omega⟩, rfl⟩
  have hB : ∀ k, I % 2 = 1 → PairedList (circuitMirror I) (fun p => p.1 < I ∧ p.2 < I + 2)
      (pairWrites (fun j => ((I / 2, j), (I / 2, I - 1 - j))) cw
        (List.range (ceilHalf I)) k).1 := by
    intro k hI
    refine pairWrites_paired _ _ _ _ _ (fun j hj => ?_) k
    rw [List.mem_range] at hj
    unfold ceilHalf at hj
    dsimp only [circuitMirror]
    rw [if_pos (show j < I by omega)]
    refine ⟨⟨by omega, by omega⟩, ?_⟩
    rw [Prod.mk.injEq]
    exact ⟨by omega, rfl⟩
  have hC : ∀ k, PairedList (circuitMirror I) (fun p => p.1 < I ∧ p.2 < I + 2)
      (pairWrites
        (fun p => ((p.1, I + p.2), (I - 1 - p.1, (I + 2) - 1 - p.2))) cw
        (rowMajorIdx (I / 2) 2) k).1 := by
    intro k
    refine pairWrites_paired _ _ _ _ _ (fun p hp => ?_) k
    rw [mem_rowMajorIdx] at hp
    dsimp only [circuitMirror]
    rw [if_neg (show ¬(I + p.2 < I) by omega)]
    refine ⟨⟨by omega, by omega⟩, ?_⟩
    rw [Prod.mk.injEq]
    exact ⟨rfl, by omega⟩
  have hD : ∀ k, I % 2 = 1 → PairedList (circuitMirror I) (fun p => p.1 < I ∧ p.2 < I + 2)
      (pairWrites (fun j => ((I / 2, I + j), (I / 2, (I + 2) - 1 - j))) cw
        (List.range 1) k).1 := by
    intro k hI
    refine pairWrites_paired _ _ _ _ _ (fun j hj => ?_) k
    rw [List.mem_range] at hj
    dsimp only [circuitMirror]
    rw [if_neg (show ¬(I + j < I) by omega)]
    refine ⟨⟨by omega, by omega⟩, ?_⟩
    rw [Prod.mk.injEq]
    exact ⟨by omega, by omega⟩
  by_cases hI : I % 2 = 1
  · simp only [circuitWritesSym, hI, if_pos]
    exact PairedList.append _ _ _ _
      (PairedList.append _ _ _ _
        (PairedList.append _ _ _ _ (hA 0) (hB _ hI)) (hC _)) (hD _ hI)
  · simp only [circuitWritesSym, hI, ite_false]
    simp only [List.nil_append, List.append_nil]
    exact PairedList.append _ _ _ _ (hA 0) (hC _)

theorem halfVectorWrites_paired (I : ℕ) (vp : ℕ → ℚ) :
    PairedList (vectorMirror I) (fun i => i < I + 2) (halfVectorWrites I vp) := by
  unfold halfVectorWrites
  refine PairedList.append _ _ _ _ ?_ ?_
  · refine pairWrites_paired _ _ _ _ _ (fun i hi => ?_) 0
    rw [List.mem_range] at hi
    unfold ceilHalf at hi
    refine ⟨by omega, ?_⟩
    unfold vectorMirror
    rw [if_pos (by omega)]
  · refine ⟨by omega, ?_, rfl, trivial⟩
    unfold vectorMirror
    rw [if_neg (by omega)]
    omega

/-- Mirror symmetry of the decoded symmetric sensor-weight matrix. -/
theorem sensorWeightsSym_symm (R I : ℕ) (c : ScaleCfg) (x : ℕ → ℚ) :
    SymmOn (sensorMirror R I) (fun p => p.1 < R ∧ p.2 < I)
      (sensorWeightsSym R I c x) := by
  exact applyWrites_symm _ _ (sensorMirror_invol R I) _
    (sensorWritesSym_paired R I _) _ (fun p _ => rfl)

/-- Mirror symmetry of the decoded symmetric internal-weight matrix. -/
theorem circuitWeightsSym_symm (R I : ℕ) (c : ScaleCfg) (x : ℕ → ℚ) :
    SymmOn (circuitMirror I) (fun p => p.1 < I ∧ p.2 < I + 2)
      (circuitWeightsSym R I c x) := by
  exact applyWrites_symm _ _ (circuitMirror_invol I) _
    (circuitWritesSym_paired I _) _ (fun p _ => rfl)

/-- Mirror symmetry of the decoded symmetric bias vector. -/
theorem biasesSym_symm (R I : ℕ) (c : ScaleCfg) (x : ℕ → ℚ) :
    SymmOn (vectorMirror I) (fun i => i < I + 2) (biasesSym R I c x) := by
  exact applyWrites_symm _ _ (vectorMirror_invol I) _
    (halfVectorWrites_paired I _) _ (fun p _ => rfl)

/-- Mirror symmetry of the decoded symmetric time-constant vector. -/
theorem tausSym_symm (R I : ℕ) (c : ScaleCfg) (x : ℕ → ℚ) :
    SymmOn (vectorMirror I) (fun i => i < I + 2) (tausSym R I c x) := by
  exact applyWrites_symm _ _ (vectorMirror_invol I) _
    (halfVectorWrites_paired I _) _ (fun p _ => rfl)

theorem mem_sensorWritesAsym (R I : ℕ) (sw : ℕ → ℚ) (q : ℕ × ℕ) (u : ℚ) :
    (q, u) ∈ sensorWritesAsym R I sw ↔
      q.1 < R ∧ q.2 < I ∧ u = sw (I * q.1 + q.2) := by
  simp only [sensorWritesAsym, List.mem_map, Prod.mk.injEq]
  constructor
  · rintro ⟨p, hp, hpq, hu⟩
    rw [mem_rowMajorIdx] at hp
    have : (p.1, p.2) = p := rfl
    rw [this] at hpq
    subst hpq
    exact ⟨hp.1, hp.2, hu.symm⟩
  · rintro ⟨h1, h2, hu⟩
    exact ⟨q, (mem_rowMajorIdx _ _ _).mpr ⟨h1, h2⟩, rfl, hu.symm⟩

/-- Readback of the asymmetric sensor-weight matrix: cell `(i,j)` holds the
rescaled genome entry at row-major index `I*i + j`. -/
theorem sensorWeightsAsym_eq (R I : ℕ) (c : ScaleCfg) (x : ℕ → ℚ)
    (i j : ℕ) (hi : i < R) (hj : j < I) :
    sensorWeightsAsym R I c x (i, j)
      = wrapRescale x 0 c.min_weight c.max_weight c.min_search c.max_search
          (I * i + j) := by
  unfold sensorWeightsAsym
  apply applyWrites_agree
  · exact (mem_sensorWritesAsym _ _ _ _ _).mpr ⟨hi, hj, rfl⟩
  · intro q u hq hqp
    subst hqp
    exact ((mem_sensorWritesAsym _ _ _ _ _).mp hq).2.2

theorem mem_circuitWritesAsym (I : ℕ) (cw : ℕ → ℚ) (q : ℕ × ℕ) (u : ℚ) :
    (q, u) ∈ circuitWritesAsym I cw ↔
      ((q.1 < I ∧ q.2 < I ∧ u = cw (I * q.1 + q.2)) ∨
       (q.1 < I ∧ ∃ k < 2, q.2 = I + k ∧ u = cw (I * I + 2 * q.1 + k))) := by
  simp only [circuitWritesAsym, List.mem_append, List.mem_map, Prod.mk.injEq]
  constructor
  · rintro (⟨p, hp, hpq, hu⟩ | ⟨p, hp, hpq, hu⟩)
    · rw [mem_rowMajorIdx] at hp
      have : (p.1, p.2) = p := rfl
      rw [this] at hpq
      subst hpq
      exact Or.inl ⟨hp.1, hp.2, hu.symm⟩
    · rw [mem_rowMajorIdx] at hp
      subst hpq
      exact Or.inr ⟨hp.1, p.2, hp.2, rfl, hu.symm⟩
  · rintro (⟨h1, h2, hu⟩ | ⟨h1, k, hk, hq2, hu⟩)
    · exact Or.inl ⟨q, (mem_rowMajorIdx _ _ _).mpr ⟨h1, h2⟩, rfl, hu.symm⟩
    · refine Or.inr ⟨(q.1, k), (mem_rowMajorIdx _ _ _).mpr ⟨h1, hk⟩, ?_, hu.symm⟩
      rw [Prod.mk.injEq]
      exact ⟨rfl, hq2.symm⟩

/-- Readback of the asymmetric internal-weight interneuron block: cell
`(i,j)` with `j < I` holds the rescaled entry at row-major index `I*i + j`
of the circuit segment. -/
theorem circuitWeightsAsym_block_eq (R I : ℕ) (c : ScaleCfg) (x : ℕ → ℚ)
    (i j : ℕ) (hi : i < I) (hj : j < I) :
    circuitWeightsAsym R I c x (i, j)
      = wrapRescale x (num_sensor_weights_asym R I)
          c.min_weight c.max_weight c.min_search c.max_search (I * i + j) := by
  unfold circuitWeightsAsym
  apply applyWrites_agree
  · exact (mem_circuitWritesAsym _ _ _ _).mpr (Or.inl ⟨hi, hj, rfl⟩)
  · intro q u hq hqp
    subst hqp
    rcases (mem_circuitWritesAsym _ _ _ _).mp hq with h | h
    · exact h.2.2
    · obtain ⟨_, k, _, hq2, _⟩ := h
      omega

/-- Readback of the asymmetric motor columns: cell `(i, I+k)` with `k < 2`
holds the rescaled entry at index `I*I + 2*i + k` of the circuit segment. -/
theorem circuitWeightsAsym_motor_eq (R I : ℕ) (c : ScaleCfg) (x : ℕ → ℚ)
    (i k : ℕ) (hi : i < I) (hk : k < 2) :
    circuitWeightsAsym R I c x (i, I + k)
      = wrapRescale x (num_sensor_weights_asym R I)
          c.min_weight c.max_weight c.min_search c.max_search
          (I * I + 2 * i + k) := by
  unfold circuitWeightsAsym
  apply applyWrites_agree
  · exact (mem_circuitWritesAsym _ _ _ _).mpr (Or.inr ⟨hi, k, hk, rfl, rfl⟩)
  · intro q u hq hqp
    subst hqp
    rcases (mem_circuitWritesAsym _ _ _ _).mp hq with h | h
    · exact absurd h.2.1 (by omega)
    · obtain ⟨_, k', hk', hq2, hu⟩ := h
      have : k' = k := by omega
      subst this
      exact hu

/-- Modelled from the spec's words, for comparison (claim C4): an
internal-weight matrix read back row-major over `interneuron × circuit_size`,
i.e. cell `(i, j)` holds circuit-segment entry `(I+2)*i + j`. -/
def circuitWeightsRowMajorSpec (R I : ℕ) (c : ScaleCfg) (x : ℕ → ℚ) :
    ℕ × ℕ → ℚ :=
  fun p => wrapRescale x (num_sensor_weights_asym R I)
    c.min_weight c.max_weight c.min_search c.max_search ((I + 2) * p.1 + p.2)

/-! ### Trial sweep (`run_trials`) -/

/-- Sweep matrix dimension, from the source:
`int(circle_max_diameter / circle_difference)`. -/
def runTrialsSize (circle_max_diameter circle_difference : ℚ) : ℕ :=
  (pyInt (circle_max_diameter / circle_difference)).toNat

/-- Writes of the sweep's nested loop: for every ordered pair `(i, j)` with
`i ≠ j`, cell `[i,j]` receives the continuous-mode trial result for
presented size `i*diff + min` and comparison size `j*diff + min` (`t`
abstracts the Trial Runner).  Diagonal cells are never written. -/
def runTrialsWrites (n : ℕ) (circle_min_diameter circle_difference : ℚ)
    (t : ℚ → ℚ → ℚ) : List ((ℕ × ℕ) × ℚ) :=
  (List.range n).flatMap (fun i =>
    (List.range n).flatMap (fun j =>
      if i ≠ j then
        [((i, j), t ((i : ℚ) * circle_difference + circle_min_diameter)
                    ((j : ℚ) * circle_difference + circle_min_diameter))]
      else []))

/-- The sweep's outcome matrix (`np.zeros` followed by the nested loop). -/
def run_trials_matrix (circle_max_diameter circle_min_diameter
    circle_difference : ℚ) (t : ℚ → ℚ → ℚ) : ℕ × ℕ → ℚ :=
  applyWrites
    (runTrialsWrites (runTrialsSize circle_max_diameter circle_difference)
      circle_min_diameter circle_difference t)
    (fun _ => 0)

theorem mem_runTrialsWrites (n : ℕ) (minD diff : ℚ) (t : ℚ → ℚ → ℚ)
    (q : ℕ × ℕ) (u : ℚ) :
    (q, u) ∈ runTrialsWrites n minD diff t ↔
      q.1 < n ∧ q.2 < n ∧ q.1 ≠ q.2 ∧
        u = t ((q.1 : ℚ) * diff + minD) ((q.2 : ℚ) * diff + minD) := by
  simp only [runTrialsWrites, List.mem_flatMap, List.mem_range]
  constructor
  · rintro ⟨i, hi, j, hj, hmem⟩
    by_cases hij : i ≠ j
    · rw [if_pos hij] at hmem
      simp only [List.mem_singleton, Prod.mk.injEq] at hmem
      obtain ⟨hq, hu⟩ := hmem
      subst hq
      exact ⟨hi, hj, hij, hu⟩
    · rw [if_neg hij] at hmem
      cases hmem
  · rintro ⟨h1, h2, hne, hu⟩
    refine ⟨q.1, h1, q.2, h2, ?_⟩
    rw [if_pos hne]
    simp only [List.mem_singleton, Prod.mk.injEq]
    exact ⟨by simp, hu⟩

/-- Off-diagonal cell of the sweep matrix: the stored trial result. -/
theorem run_trials_matrix_offdiag (maxD minD diff : ℚ) (t : ℚ → ℚ → ℚ)
    (i j : ℕ) (hi : i < runTrialsSize maxD diff)
    (hj : j < runTrialsSize maxD diff) (hij : i ≠ j) :
    run_trials_matrix maxD minD diff t (i, j)
      = t ((i : ℚ) * diff + minD) ((j : ℚ) * diff + minD) := by
  unfold run_trials_matrix
  apply applyWrites_agree
  · exact (mem_runTrialsWrites _ _ _ _ _ _).mpr ⟨hi, hj, hij, rfl⟩
  · intro q u hq hqp
    subst hqp
    exact ((mem_runTrialsWrites _ _ _ _ _ _).mp hq).2.2.2

/-- Diagonal cells of the sweep matrix are never written and stay zero. -/
theorem run_trials_matrix_diag (maxD minD diff : ℚ) (t : ℚ → ℚ → ℚ) (i : ℕ) :
    run_trials_matrix maxD minD diff t (i, i) = 0 := by
  unfold run_trials_matrix
  apply applyWrites_not_mem
  intro v hv
  exact ((mem_runTrialsWrites _ _ _ _ _ _).mp hv).2.2.1 rfl

/-! ### Fitness reducer (`eval_fitness`)

The reducer is modelled over an `n × n` matrix given as dimension plus cell
function.  A division whose divisor is zero (Python `ZeroDivisionError`)
yields `none`. -/

/-- Running state of the reducer's inner loop over `j`. -/
structure FitAcc where
  colSum : ℚ
  rowSum : ℚ
  numSums : ℕ
  colAvg : ℚ
  rowAvg : ℚ

/-- One inner-loop iteration of `eval_fitness` at column/row index `i`,
visiting `j`: on the diagonal, fold the chunk sums into the accumulated
averages (failing like Python on division by zero); off the diagonal,
extend the chunk sums. -/
def fitInnerStep (M : ℕ × ℕ → ℚ) (i : ℕ) (a : FitAcc) (j : ℕ) : Option FitAcc :=
  if i = j then
    if a.numSums = 0 then none
    else some { colSum := 0, rowSum := 0, numSums := 0,
                colAvg := a.colAvg + a.colSum / (a.numSums : ℚ),
                rowAvg := a.rowAvg + a.rowSum / (a.numSums : ℚ) }
  else some { a with numSums := a.numSums + 1,
                     colSum := a.colSum + M (j, i),
                     rowSum := a.rowSum + M (i, j) }

/-- One outer-loop iteration of `eval_fitness`: run the inner loop over
`j ∈ range n` starting from zeroed chunk sums, then fold the trailing chunk
into the accumulated averages. -/
def fitOuterStep (M : ℕ × ℕ → ℚ) (n : ℕ) (acc : ℚ × ℚ) (i : ℕ) :
    Option (ℚ × ℚ) := do
  let a ← (List.range n).foldlM (fitInnerStep M i) ⟨0, 0, 0, acc.1, acc.2⟩
  if a.numSums = 0 then none
  else pure (a.colAvg + a.colSum / (a.numSums : ℚ),
             a.rowAvg + a.rowSum / (a.numSums : ℚ))

/-- `eval_fitness` on an `n × n` matrix: outer loop over
`i ∈ range(1, n-1)`, then `min(col_avg/(n-2)/2, row_avg/(n-2)/2)` with the
Python integer `n-2` as divisor. -/
def eval_fitness (n : ℕ) (M : ℕ × ℕ → ℚ) : Option ℚ := do
  let acc ← (List.range' 1 (n - 1 - 1)).foldlM (fitOuterStep M n) (0, 0)
  let d : ℚ := ((n : ℤ) - 2 : ℤ)
  if d = 0 then none
  else pure (min (acc.1 / d / 2) (acc.2 / d / 2))

/-- The two chunk averages the reducer computes for one interior index `i`:
average of `f` over `j < i`, plus average of `f` over `i < j < n`
(the code divides each chunk by its own length, not the whole by `n-1`). -/
def chunkPair (f : ℕ → ℚ) (i n : ℕ) : ℚ :=
  ((List.range i).map f).sum / (i : ℚ)
    + ((List.range' (i + 1) (n - 1 - i)).map f).sum / ((n - 1 - i : ℕ) : ℚ)

/-- Contribution of interior index `i` to the accumulated column average. -/
def colContrib (M : ℕ × ℕ → ℚ) (n i : ℕ) : ℚ := chunkPair (fun j => M (j, i)) i n

/-- Contribution of interior index `i` to the accumulated row average. -/
def rowContrib (M : ℕ × ℕ → ℚ) (n i : ℕ) : ℚ := chunkPair (fun j => M (i, j)) i n

theorem fitInner_chunk (M : ℕ × ℕ → ℚ) (i : ℕ) (l : List ℕ) :
    (∀ j ∈ l, j ≠ i) → ∀ a : FitAcc,
      l.foldlM (fitInnerStep M i) a
        = some { colSum := a.colSum + (l.map (fun j => M (j, i))).sum,
                 rowSum := a.rowSum + (l.map (fun j => M (i, j))).sum,
                 numSums := a.numSums + l.length,
                 colAvg := a.colAvg, rowAvg := a.rowAvg } := by
  induction l with
  | nil => intro _ a; simp
  | cons j l ih =>
      intro h a
      have hji : ¬ i = j := fun hc => (h j (List.mem_cons_self _ _)) hc.symm
      rw [List.foldlM_cons]
      simp only [fitInnerStep, if_neg hji]
      simp only [Option.bind_eq_bind, Option.some_bind]
      rw [ih (fun j' hj' => h j' (List.mem_cons_of_mem _ hj')) _]
      simp only [Option.some.injEq, FitAcc.mk.injEq, List.map_cons, List.sum_cons,
        List.length_cons, and_true, true_and]
      refine ⟨by ring, by ring, by omega⟩

theorem fitInnerStep_diag (M : ℕ × ℕ → ℚ) (i : ℕ) (a : FitAcc)
    (h : ¬ a.numSums = 0) :
    fitInnerStep M i a i
      = some { colSum := 0, rowSum := 0, numSums := 0,
               colAvg := a.colAvg + a.colSum / (a.numSums : ℚ),
               rowAvg := a.rowAvg + a.rowSum / (a.numSums : ℚ) } := by
  unfold fitInnerStep
  rw [if_pos rfl, if_neg h]

theorem fitInner_split (M : ℕ × ℕ → ℚ) (i : ℕ) (l₁ l₂ : List ℕ)
    (h₁ : ∀ j ∈ l₁, j ≠ i) (h₂ : ∀ j ∈ l₂, j ≠ i) (a : FitAcc)
    (hn : ¬ a.numSums + l₁.length = 0) :
    (l₁ ++ i :: l₂).foldlM (fitInnerStep M i) a
      = some { colSum := (l₂.map (fun j => M (j, i))).sum,
               rowSum := (l₂.map (fun j => M (i, j))).sum,
               numSums := l₂.length,
               colAvg := a.colAvg
                 + (a.colSum + (l₁.map (fun j => M (j, i))).sum)
                     / ((a.numSums + l₁.length : ℕ) : ℚ),
               rowAvg := a.rowAvg
                 + (a.rowSum + (l₁.map (fun j => M (i, j))).sum)
                     / ((a.numSums + l₁.length : ℕ) : ℚ) } := by
  rw [List.foldlM_append, fitInner_chunk M i l₁ h₁ a]
  simp only [Option.bind_eq_bind, Option.some_bind]
  rw [List.foldlM_cons]
  have hd := fitInnerStep_diag M i
    { colSum := a.colSum + (l₁.map (fun j => M (j, i))).sum,
      rowSum := a.rowSum + (l₁.map (fun j => M (i, j))).sum,
      numSums := a.numSums + l₁.length,
      colAvg := a.colAvg, rowAvg := a.rowAvg } hn
  rw [hd]
  simp only [Option.bind_eq_bind, Option.some_bind]
  rw [fitInner_chunk M i l₂ h₂ _]
  simp only [Option.some.injEq, FitAcc.mk.injEq, and_true, true_and]
  refine ⟨by ring, by ring, by omega⟩

theorem fitOuterStep_eq (M : ℕ × ℕ → ℚ) (n i : ℕ)
    (hi : 1 ≤ i) (hin : i + 1 < n) (acc : ℚ × ℚ) :
    fitOuterStep M n acc i
      = some (acc.1 + colContrib M n i, acc.2 + rowContrib M n i) := by
  have hsplit : List.range n = List.range' 0 i ++ i :: List.range' (i + 1) (n - 1 - i) := by
    rw [List.range_eq_range']
    have h1 : List.range' 0 n = List.range' 0 i ++ List.range' (0 + i) (n - i) := by
      rw [List.range'_append_1]
      congr 1
      omega
    rw [h1]
    simp only [Nat.zero_add]
    congr 1
    have h2 : n - i = (n - 1 - i) + 1 := by omega
    rw [h2, List.range'_succ]
  unfold fitOuterStep
  rw [hsplit, fitInner_split M i _ _
    (fun j hj => by rw [List.mem_range'_1] at hj; omega)
    (fun j hj => by rw [List.mem_range'_1] at hj; omega) _
    (by simp only [List.length_range']; omega)]
  simp only [Option.bind_eq_bind, Option.some_bind, List.length_range']
  rw [if_neg (by omega)]
  simp only [Option.pure_def, Option.some.injEq, Prod.mk.injEq]
  unfold colContrib rowContrib chunkPair
  rw [List.range_eq_range']
  constructor
  · simp only [Nat.zero_add, zero_add]
    ring
  · simp only [Nat.zero_add, zero_add]
    ring

theorem fitOuter_fold (M : ℕ × ℕ → ℚ) (n : ℕ) (l : List ℕ) :
    (∀ i ∈ l, 1 ≤ i ∧ i + 1 < n) → ∀ acc : ℚ × ℚ,
      l.foldlM (fitOuterStep M n) acc
        = some (acc.1 + (l.map (colContrib M n)).sum,
                acc.2 + (l.map (rowContrib M n)).sum) := by
  induction l with
  | nil => intro _ acc; simp
  | cons i l ih =>
      intro h acc
      have hi := h i (List.mem_cons_self _ _)
      rw [List.foldlM_cons, fitOuterStep_eq M n i hi.1 hi.2]
      simp only [Option.bind_eq_bind, Option.some_bind]
      rw [ih (fun i' hi' => h i' (List.mem_cons_of_mem _ hi')) _]
      simp only [Option.some.injEq, Prod.mk.injEq, List.map_cons, List.sum_cons]
      constructor <;> ring

/-- Accumulated column average of `eval_fitness` (before the final division):
sum over the interior indices of the two per-chunk column averages. -/
def colAccum (M : ℕ × ℕ → ℚ) (n : ℕ) : ℚ :=
  ((List.range' 1 (n - 1 - 1)).map (colContrib M n)).sum

/-- Accumulated row average of `eval_fitness` (before the final division). -/
def rowAccum (M : ℕ × ℕ → ℚ) (n : ℕ) : ℚ :=
  ((List.range' 1 (n - 1 - 1)).map (rowContrib M n)).sum

/-- Closed form of `eval_fitness` for `n ≥ 3`. -/
theorem eval_fitness_eq (n : ℕ) (hn : 3 ≤ n) (M : ℕ × ℕ → ℚ) :
    eval_fitness n M
      = some (min (colAccum M n / ((n : ℚ) - 2) / 2)
                  (rowAccum M n / ((n : ℚ) - 2) / 2)) := by
  unfold eval_fitness
  rw [fitOuter_fold M n _ (fun i hi => by
    rw [List.mem_range'_1] at hi
    omega) _]
  simp only [Option.bind_eq_bind, Option.some_bind]
  rw [if_neg (by
    push_cast
    intro hc
    have : (n : ℚ) = 2 := by linarith
    have : n = 2 := by exact_mod_cast this
    omega)]
  unfold colAccum rowAccum
  simp only [Option.pure_def, Option.some.injEq, zero_add]
  push_cast
  ring_nf

theorem sum_map_const_of (l : List ℕ) (f : ℕ → ℚ) (c : ℚ)
    (h : ∀ j ∈ l, f j = c) : (l.map f).sum = l.length * c := by
  induction l with
  | nil => simp
  | cons j l ih =>
      simp only [List.map_cons, List.sum_cons, List.length_cons]
      rw [h j (List.mem_cons_self _ _),
        ih (fun j' hj' => h j' (List.mem_cons_of_mem _ hj'))]
      push_cast
      ring

/-! ### Trial runner (`trial`)

The Agent and Object collaborators are external: their ray state and
controller state are abstract types, and their update operations are
opaque parameters.  The Trial Runner's own structure — setup, the frozen
presentation loop, the re-setup, the free comparison loop, and the outcome
computation — is transcribed from the source. -/

/-- Dynamic state of one trial: agent pose/velocity, ray state, controller
(nervous-system) state, and object pose/size. -/
structure TrialState (Ray Nerv : Type) where
  agentX : ℚ
  agentY : ℚ
  velX : ℚ
  rays : Ray
  nerv : Nerv
  ballX : ℚ
  ballY : ℚ
  ballSize : ℚ

/-- Configuration constants the Trial Runner reads. -/
structure TrialCfg where
  initial_agent_x : ℚ
  initial_agent_y : ℚ
  agent_radius : ℚ
  max_ray_length : ℚ
  step_size : ℚ
  world_left : ℚ
  world_right : ℚ
  max_distance : ℚ

/-- The external collaborator operations the Trial Runner drives. -/
structure TrialExt (Ray Nerv : Type) where
  initNerv : Nerv
  resetRays : Ray
  initRaySensors : ℚ × ℚ × ℚ → Ray
  ballStep : ℚ → ℚ → ℚ
  leadingEdgeY : ℚ → ℚ → ℚ
  oneObjStep : Bool → TrialState Ray Nerv → TrialState Ray Nerv
  clipX : ℚ → ℚ → ℚ → ℚ

/-- Trial setup: agent back to start with zero velocity, controller state
initialized, object placed above the agent sized to half the *presented*
diameter, ray sensing initialized against the object. -/
def trialSetup {Ray Nerv : Type} (cfg : TrialCfg) (ext : TrialExt Ray Nerv)
    (presented : ℚ) : TrialState Ray Nerv :=
  let ballX := cfg.initial_agent_x
  let ballY := cfg.initial_agent_y
    - (cfg.agent_radius + cfg.max_ray_length + presented)
  let ballSize := presented / 2
  { agentX := cfg.initial_agent_x
    agentY := cfg.initial_agent_y
    velX := 0
    rays := ext.initRaySensors (ballX, ballY, ballSize)
    nerv := ext.initNerv
    ballX := ballX
    ballY := ballY
    ballSize := ballSize }

/-- A `while cond` loop with explicit fuel. -/
def phaseLoop {S : Type} (cond : S → Bool) (step : S → S) : ℕ → S → S
  | 0, s => s
  | fuel + 1, s => if cond s then phaseLoop cond step fuel (step s) else s

/-- The loop guard of both phases:
`ball.leading_edge_y() < agent.ypos - agent.radius`. -/
def trialCond {Ray Nerv : Type} (cfg : TrialCfg) (ext : TrialExt Ray Nerv)
    (s : TrialState Ray Nerv) : Bool :=
  decide (ext.leadingEdgeY s.ballY s.ballSize < s.agentY - cfg.agent_radius)

/-- One iteration of phase 1 (agent frozen): step the object's fall, then
advance the agent with motor output suppressed. -/
def phase1Step {Ray Nerv : Type} (cfg : TrialCfg) (ext : TrialExt Ray Nerv)
    (s : TrialState Ray Nerv) : TrialState Ray Nerv :=
  ext.oneObjStep true { s with ballY := ext.ballStep s.ballY cfg.step_size }

/-- One iteration of phase 2 (agent free): step the object's fall, advance
the agent with motor output enabled, then clip the agent to world bounds. -/
def phase2Step {Ray Nerv : Type} (cfg : TrialCfg) (ext : TrialExt Ray Nerv)
    (s : TrialState Ray Nerv) : TrialState Ray Nerv :=
  let s' := ext.oneObjStep false { s with ballY := ext.ballStep s.ballY cfg.step_size }
  { s' with agentX := ext.clipX cfg.world_left cfg.world_right s'.agentX }

/-- State at the end of phase 1 (presentation). -/
def trialPhase1End {Ray Nerv : Type} (cfg : TrialCfg) (ext : TrialExt Ray Nerv)
    (presented : ℚ) (fuel : ℕ) : TrialState Ray Nerv :=
  phaseLoop (trialCond cfg ext) (phase1Step cfg ext) fuel
    (trialSetup cfg ext presented)

/-- Re-setup between the phases (source lines 395-400): reposition the
object at the top sized to half the *comparison* diameter and reset the
agent's rays; nothing else is touched. -/
def trialResetup {Ray Nerv : Type} (cfg : TrialCfg) (ext : TrialExt Ray Nerv)
    (comparison : ℚ) (s : TrialState Ray Nerv) : TrialState Ray Nerv :=
  { s with
      ballX := cfg.initial_agent_x
      ballY := cfg.initial_agent_y
        - (cfg.agent_radius + cfg.max_ray_length + comparison)
      ballSize := comparison / 2
      rays := ext.resetRays }

/-- State entering phase 2 (comparison). -/
def trialPhase2Start {Ray Nerv : Type} (cfg : TrialCfg) (ext : TrialExt Ray Nerv)
    (presented comparison : ℚ) (fuel : ℕ) : TrialState Ray Nerv :=
  trialResetup cfg ext comparison (trialPhase1End cfg ext presented fuel)

/-- Final state of the trial after the phase-2 loop. -/
def trialFinalState {Ray Nerv : Type} (cfg : TrialCfg) (ext : TrialExt Ray Nerv)
    (presented comparison : ℚ) (fuel1 fuel2 : ℕ) : TrialState Ray Nerv :=
  phaseLoop (trialCond cfg ext) (phase2Step cfg ext) fuel2
    (trialPhase2Start cfg ext presented comparison fuel1)

/-- Validation-mode outcome of `trial` (source lines 411-424): the
`(success, caught)` pair from the final object centre/size and agent
position/radius. -/
def trialValidationOutcome (presented comparison cx size ax radius : ℚ) :
    ℤ × ℤ :=
  if presented > comparison then
    if cx - size > ax + radius ∨ cx + size < ax - radius then (0, 0)
    else (1, 1)
  else
    if cx - size > ax + radius ∨ cx + size < ax - radius then (1, 0)
    else (0, 1)

/-- The clamped normalized distance of the continuous outcome:
`|object_center_x - agent_x| / max_distance`, clamped to at most `1`. -/
def normalizedDistanceClamped (cx ax max_distance : ℚ) : ℚ :=
  let nd := |cx - ax| / max_distance
  if nd > 1 then 1 else nd

/-- Continuous-fitness outcome of `trial` (source lines 426-434). -/
def trialContinuousOutcome (presented comparison cx ax max_distance : ℚ) : ℚ :=
  if presented > comparison then 1 - normalizedDistanceClamped cx ax max_distance
  else normalizedDistanceClamped cx ax max_distance

/-- The full continuous-mode trial: run both phases and score the final
state. -/
def trialContinuous {Ray Nerv : Type} (cfg : TrialCfg) (ext : TrialExt Ray Nerv)
    (presented comparison : ℚ) (fuel1 fuel2 : ℕ) : ℚ :=
  let s := trialFinalState cfg ext presented comparison fuel1 fuel2
  trialContinuousOutcome presented comparison s.ballX s.agentX cfg.max_distance

/-! ### Constant-matrix evaluation of the reducer -/

theorem colContrib_const (M : ℕ × ℕ → ℚ) (n i : ℕ) (c : ℚ)
    (hi : 1 ≤ i) (hin : i + 1 < n)
    (hM : ∀ p : ℕ × ℕ, p.1 ≠ p.2 → M p = c) :
    colContrib M n i = 2 * c := by
  unfold colContrib chunkPair
  rw [sum_map_const_of _ _ c (fun j hj => by
    rw [List.mem_range] at hj
    exact hM (j, i) (by omega))]
  rw [sum_map_const_of _ _ c (fun j hj => by
    rw [List.mem_range'_1] at hj
    exact hM (j, i) (by omega))]
  simp only [List.length_range, List.length_range']
  have h1 : (i : ℚ) ≠ 0 := Nat.cast_ne_zero.mpr (by omega)
  have h2 : ((n - 1 - i : ℕ) : ℚ) ≠ 0 := Nat.cast_ne_zero.mpr (by omega)
  rw [mul_div_cancel_left₀ c h1, mul_div_cancel_left₀ c h2]
  ring

theorem rowContrib_const (M : ℕ × ℕ → ℚ) (n i : ℕ) (c : ℚ)
    (hi : 1 ≤ i) (hin : i + 1 < n)
    (hM : ∀ p : ℕ × ℕ, p.1 ≠ p.2 → M p = c) :
    rowContrib M n i = 2 * c := by
  unfold rowContrib chunkPair
  rw [sum_map_const_of _ _ c (fun j hj => by
    rw [List.mem_range] at hj
    exact hM (i, j) (by omega))]
  rw [sum_map_const_of _ _ c (fun j hj => by
    rw [List.mem_range'_1] at hj
    exact hM (i, j) (by omega))]
  simp only [List.length_range, List.length_range']
  have h1 : (i : ℚ) ≠ 0 := Nat.cast_ne_zero.mpr (by omega)
  have h2 : ((n - 1 - i : ℕ) : ℚ) ≠ 0 := Nat.cast_ne_zero.mpr (by omega)
  rw [mul_div_cancel_left₀ c h1, mul_div_cancel_left₀ c h2]
  ring

/-- On a matrix whose off-diagonal entries all equal `c`, `eval_fitness`
returns `c` (each interior index contributes the two chunk averages
`c + c = 2c`, the accumulators reach `2c(n-2)`, and the final division is
by `(n-2)` and then by `2`). -/
theorem eval_fitness_const (n : ℕ) (hn : 3 ≤ n) (M : ℕ × ℕ → ℚ) (c : ℚ)
    (hM : ∀ p : ℕ × ℕ, p.1 ≠ p.2 → M p = c) :
    eval_fitness n M = some c := by
  rw [eval_fitness_eq n hn M]
  have hcol : colAccum M n = ((n - 1 - 1 : ℕ) : ℚ) * (2 * c) := by
    unfold colAccum
    rw [sum_map_const_of _ _ (2 * c) (fun i hi => by
      rw [List.mem_range'_1] at hi
      exact colContrib_const M n i c (by omega) (by omega) hM)]
    simp only [List.length_range']
  have hrow : rowAccum M n = ((n - 1 - 1 : ℕ) : ℚ) * (2 * c) := by
    unfold rowAccum
    rw [sum_map_const_of _ _ (2 * c) (fun i hi => by
      rw [List.mem_range'_1] at hi
      exact rowContrib_const M n i c (by omega) (by omega) hM)]
    simp only [List.length_range']
  rw [hcol, hrow]
  have hcast : ((n - 1 - 1 : ℕ) : ℚ) = (n : ℚ) - 2 := by
    rw [Nat.cast_sub (by omega), Nat.cast_sub (by omega)]
    push_cast
    ring
  have hne : ((n : ℚ) - 2) ≠ 0 := by
    intro hc
    have : (n : ℚ) = 2 := by linarith
    have : n = 2 := by exact_mod_cast this
    omega
  rw [hcast]
  have hval : ((n : ℚ) - 2) * (2 * c) / ((n : ℚ) - 2) / 2 = c := by
    field_simp
  rw [hval, min_self]

/-! ### Claim theorems -/

/-- C1, counterexample to the claim as stated: on the `3 × 3` matrix with
all off-diagonal cells equal to `1`, `eval_fitness` does not return `0.5`
(it returns `1`, because each interior index contributes the below-diagonal
chunk average plus the above-diagonal chunk average). -/
theorem claim_C1_counterexample :
    eval_fitness 3 (fun p => if p.1 = p.2 then 0 else 1) = some 1
    ∧ eval_fitness 3 (fun p => if p.1 = p.2 then 0 else 1) ≠ some (1 / 2) := by
  have h := eval_fitness_const 3 (by norm_num)
    (fun p => if p.1 = p.2 then 0 else 1) 1 (fun p hp => by simp [hp])
  refine ⟨h, ?_⟩
  rw [h]
  intro hc
  rw [Option.some.injEq] at hc
  norm_num at hc

/-- C1 (amended): for `n ≥ 3`, `eval_fitness` equals
`min(col_accum, row_accum)/(n-2)/2` where each interior index `i`
contributes to each accumulator the average of the entries before the
diagonal plus the average of the entries after the diagonal (two separate
chunk averages); consequently a matrix with all off-diagonal cells `1`
yields `1` (not `0.5`), and all off-diagonal cells `0` yields `0`. -/
theorem claim_C1_amended (n : ℕ) (hn : 3 ≤ n) (M : ℕ × ℕ → ℚ) :
    eval_fitness n M
      = some (min (colAccum M n / ((n : ℚ) - 2) / 2)
                  (rowAccum M n / ((n : ℚ) - 2) / 2))
    ∧ ((∀ p : ℕ × ℕ, p.1 ≠ p.2 → M p = 1) → eval_fitness n M = some 1)
    ∧ ((∀ p : ℕ × ℕ, p.1 ≠ p.2 → M p = 0) → eval_fitness n M = some 0) :=
  ⟨eval_fitness_eq n hn M,
   fun hM => eval_fitness_const n hn M 1 hM,
   fun hM => eval_fitness_const n hn M 0 hM⟩

/-- C1 witness: the amended claim at `n = 4`. -/
theorem claim_C1_witness :
    3 ≤ 4
    ∧ eval_fitness 4 (fun p => if p.1 = p.2 then 0 else 1) = some 1
    ∧ eval_fitness 4 (fun _ => 0) = some 0 :=
  ⟨by norm_num,
   (claim_C1_amended 4 (by norm_num) (fun p => if p.1 = p.2 then 0 else 1)).2.1
     (fun p hp => by simp [hp]),
   (claim_C1_amended 4 (by norm_num) (fun _ => 0)).2.2 (fun _ _ => rfl)⟩

/-- C2, counterexample to the claim as stated: with the default sweep
configuration (`circle_max_diameter = 50`, `circle_min_diameter = 20`,
`circle_difference = 5`) the code builds a `10 × 10` matrix
(`int(max/diff)`), not the claimed `floor((max-min)/diff) = 6`. -/
theorem claim_C2_counterexample :
    runTrialsSize 50 5 = 10 ∧ (((50 : ℚ) - 20) / 5 = 6) ∧ (10 : ℕ) ≠ 6 :=
  ⟨by norm_num [runTrialsSize, pyInt, Int.toNat], by norm_num, by norm_num⟩

/-- C2 (amended): the sweep builds a square matrix over
`n = int(circle_max_diameter / circle_difference)` sizes (the minimum
diameter is not subtracted), the size at index `i` is
`circle_min_diameter + i*circle_difference`, every off-diagonal cell
`[i,j]` stores the continuous-mode trial result for that ordered pair, and
diagonal cells are never written (they stay `0`). -/
theorem claim_C2_amended (maxD minD diff : ℚ) (t : ℚ → ℚ → ℚ) :
    (∀ i j, i < runTrialsSize maxD diff → j < runTrialsSize maxD diff →
      i ≠ j →
      run_trials_matrix maxD minD diff t (i, j)
        = t ((i : ℚ) * diff + minD) ((j : ℚ) * diff + minD))
    ∧ (∀ i, run_trials_matrix maxD minD diff t (i, i) = 0) :=
  ⟨fun i j hi hj hij => run_trials_matrix_offdiag maxD minD diff t i j hi hj hij,
   fun i => run_trials_matrix_diag maxD minD diff t i⟩

/-- C2 witness: the amended claim at the default configuration. -/
theorem claim_C2_witness :
    (0 : ℕ) < runTrialsSize 50 5 ∧ (1 : ℕ) < runTrialsSize 50 5 ∧ (0 : ℕ) ≠ 1
    ∧ run_trials_matrix 50 20 5 (fun a b => a + 10 * b) (0, 1)
        = ((0 : ℚ) * 5 + 20) + 10 * ((1 : ℚ) * 5 + 20)
    ∧ run_trials_matrix 50 20 5 (fun a b => a + 10 * b) (2, 2) = 0 :=
  ⟨by norm_num [runTrialsSize, pyInt, Int.toNat], by norm_num [runTrialsSize, pyInt, Int.toNat], by norm_num,
   (claim_C2_amended 50 20 5 (fun a b => a + 10 * b)).1 0 1
     (by norm_num [runTrialsSize, pyInt, Int.toNat]) (by norm_num [runTrialsSize, pyInt, Int.toNat])
     (by norm_num),
   (claim_C2_amended 50 20 5 (fun a b => a + 10 * b)).2 2⟩

/-- C3: in bilateral-symmetric mode, for every interneuron count `1..6` and
ray count `3..9`, the derived counts computed at construction equal the
number of genome entries the decoder's loops consume: the sensor loops'
final `index_counter` equals `num_sensor_weights`, the circuit loops' final
counter equals `num_circuit_weights`, the bias/tau loops read exactly the
indices `0..ceil(circuit_size/2)-1` of their segment, and `num_parameters`
equals the sum of the four segment lengths — no leftover, no overrun. -/
theorem claim_C3 : ∀ I ∈ Finset.Icc 1 6, ∀ R ∈ Finset.Icc 3 9,
    sensorConsumedSym R I = num_sensor_weights_sym R I
    ∧ circuitConsumedSym I = num_circuit_weights_sym I
    ∧ halfVectorUsedIndices I = Finset.range (ceilHalf (I + 2))
    ∧ num_parameters_sym R I
        = num_sensor_weights_sym R I + num_circuit_weights_sym I
          + ceilHalf (I + 2) + ceilHalf (I + 2) := by
  decide

/-- C3 witness: the claim at `I = 3` interneurons and `R = 7` rays. -/
theorem claim_C3_witness :
    sensorConsumedSym 7 3 = num_sensor_weights_sym 7 3
    ∧ circuitConsumedSym 3 = num_circuit_weights_sym 3
    ∧ halfVectorUsedIndices 3 = Finset.range (ceilHalf 5)
    ∧ num_parameters_sym 7 3
        = num_sensor_weights_sym 7 3 + num_circuit_weights_sym 3
          + ceilHalf 5 + ceilHalf 5 :=
  claim_C3 3 (by decide) 7 (by decide)

/-- C4, counterexample to the claim as stated: in asymmetric mode with
`R = 3` rays, `I = 2` interneurons, the default bounds and the genome
`x k = k/100`, the decoded motor-column entry `circuit_weights[0, 2]` is
not the row-major-over-`interneuron × circuit_size` readback: the code
writes it from circuit-segment index `I*I + 2*0 + 0 = 4`, not from
row-major index `(I+2)*0 + 2 = 2`. -/
theorem claim_C4_counterexample :
    circuitWeightsAsym 3 2 defaultScaleCfg (fun k => (k : ℚ) / 100) (0, 2)
      ≠ circuitWeightsRowMajorSpec 3 2 defaultScaleCfg
          (fun k => (k : ℚ) / 100) (0, 2) := by
  have h := circuitWeightsAsym_motor_eq 3 2 defaultScaleCfg
    (fun k => (k : ℚ) / 100) 0 0 (by norm_num) (by norm_num)
  norm_num at h
  rw [h]
  unfold circuitWeightsRowMajorSpec wrapRescale rescale_parameter
    periodic_boundary_conditions pymod num_sensor_weights_asym defaultScaleCfg
  norm_num
  rw [abs_of_nonneg (by norm_num), abs_of_nonneg (by norm_num)]
  norm_num

/-- C4 (amended): in asymmetric mode, reading back the decoded parameters
recovers the wrap-then-rescaled genome segments with the layouts the code
uses: sensor weights row-major over `ray × interneuron`; internal weights
as the `I × I` interneuron block in row-major order followed by the motor
columns in row-major `I × 2` order (`circuit_weights[i, I+k]` from segment
index `I*I + 2*i + k` — not row-major over `interneuron × circuit_size`);
biases and time constants in index order. -/
theorem claim_C4_amended (R I : ℕ) (c : ScaleCfg) (x : ℕ → ℚ) :
    (∀ i j, i < R → j < I →
      sensorWeightsAsym R I c x (i, j)
        = wrapRescale x 0 c.min_weight c.max_weight c.min_search c.max_search
            (I * i + j))
    ∧ (∀ i j, i < I → j < I →
        circuitWeightsAsym R I c x (i, j)
          = wrapRescale x (num_sensor_weights_asym R I)
              c.min_weight c.max_weight c.min_search c.max_search (I * i + j))
    ∧ (∀ i k, i < I → k < 2 →
        circuitWeightsAsym R I c x (i, I + k)
          = wrapRescale x (num_sensor_weights_asym R I)
              c.min_weight c.max_weight c.min_search c.max_search
              (I * I + 2 * i + k))
    ∧ (∀ i, biasesAsym R I c x i
        = wrapRescale x (num_sensor_weights_asym R I + num_circuit_weights_asym I)
            c.min_bias c.max_bias c.min_search c.max_search i)
    ∧ (∀ i, tausAsym R I c x i
        = wrapRescale x
            (num_sensor_weights_asym R I + num_circuit_weights_asym I + (I + 2))
            c.min_tau c.max_tau c.min_search c.max_search i) :=
  ⟨fun i j hi hj => sensorWeightsAsym_eq R I c x i j hi hj,
   fun i j hi hj => circuitWeightsAsym_block_eq R I c x i j hi hj,
   fun i k hi hk => circuitWeightsAsym_motor_eq R I c x i k hi hk,
   fun _ => rfl, fun _ => rfl⟩

/-- C4 witness: the amended claim at `R = 3`, `I = 2`, default bounds. -/
theorem claim_C4_witness :
    sensorWeightsAsym 3 2 defaultScaleCfg (fun k => (k : ℚ) / 100) (2, 1)
      = wrapRescale (fun k => (k : ℚ) / 100) 0 (-16) 16 0 1 5
    ∧ circuitWeightsAsym 3 2 defaultScaleCfg (fun k => (k : ℚ) / 100) (1, 1)
      = wrapRescale (fun k => (k : ℚ) / 100) 6 (-16) 16 0 1 3
    ∧ circuitWeightsAsym 3 2 defaultScaleCfg (fun k => (k : ℚ) / 100) (1, 3)
      = wrapRescale (fun k => (k : ℚ) / 100) 6 (-16) 16 0 1 7 :=
  ⟨(claim_C4_amended 3 2 defaultScaleCfg _).1 2 1 (by norm_num) (by norm_num),
   (claim_C4_amended 3 2 defaultScaleCfg _).2.1 1 1 (by norm_num) (by norm_num),
   (claim_C4_amended 3 2 defaultScaleCfg _).2.2.1 1 1 (by norm_num) (by norm_num)⟩

/-- C5: in bilateral-symmetric mode, the decoded parameters satisfy the
mirror identities with equal (not sign-flipped) values: sensor weights
mirror `(i,j) ↔ (R-1-i, I-1-j)`, the internal-weight interneuron block
mirrors `(i,j) ↔ (I-1-i, I-1-j)`, the motor columns mirror
`(i, I+k) ↔ (I-1-i, circuit_size-1-k)`, biases and time constants mirror
`i ↔ I-1-i`, and both motor slots hold the same value. -/
theorem claim_C5 (R I : ℕ) (c : ScaleCfg) (x : ℕ → ℚ) :
    (∀ i j, i < R → j < I →
      sensorWeightsSym R I c x (i, j)
        = sensorWeightsSym R I c x (R - 1 - i, I - 1 - j))
    ∧ (∀ i j, i < I → j < I →
        circuitWeightsSym R I c x (i, j)
          = circuitWeightsSym R I c x (I - 1 - i, I - 1 - j))
    ∧ (∀ i k, i < I → k < 2 →
        circuitWeightsSym R I c x (i, I + k)
          = circuitWeightsSym R I c x (I - 1 - i, (I + 2) - 1 - k))
    ∧ (∀ i, i < I → biasesSym R I c x i = biasesSym R I c x (I - 1 - i))
    ∧ biasesSym R I c x ((I + 2) - 2) = biasesSym R I c x ((I + 2) - 1)
    ∧ (∀ i, i < I → tausSym R I c x i = tausSym R I c x (I - 1 - i))
    ∧ tausSym R I c x ((I + 2) - 2) = tausSym R I c x ((I + 2) - 1) := by
  refine ⟨?_, ?_, ?_, ?_, ?_, ?_, ?_⟩
  · intro i j hi hj
    exact (sensorWeightsSym_symm R I c x (i, j) ⟨hi, hj⟩).symm
  · intro i j hi hj
    have h := (circuitWeightsSym_symm R I c x (i, j) ⟨hi, by omega⟩).symm
    have hm : circuitMirror I (i, j) = (I - 1 - i, I - 1 - j) := by
      simp only [circuitMirror]
      rw [if_pos hj]
    rw [hm] at h
    exact h
  · intro i k hi hk
    have h := (circuitWeightsSym_symm R I c x (i, I + k) ⟨hi, by omega⟩).symm
    have hm : circuitMirror I (i, I + k) = (I - 1 - i, (I + 2) - 1 - k) := by
      simp only [circuitMirror]
      rw [if_neg (by omega), Prod.mk.injEq]
      exact ⟨rfl, by omega⟩
    rw [hm] at h
    exact h
  · intro i hi
    have h := (biasesSym_symm R I c x i (by omega)).symm
    have hm : vectorMirror I i = I - 1 - i := by
      unfold vectorMirror
      rw [if_pos hi]
    rw [hm] at h
    exact h
  · have h := (biasesSym_symm R I c x I (by omega)).symm
    have hm : vectorMirror I I = I + 1 := by
      unfold vectorMirror
      rw [if_neg (by omega)]
      omega
    rw [hm] at h
    have e2 : (I + 2) - 2 = I := by omega
    have e1 : (I + 2) - 1 = I + 1 := by omega
    rw [e2, e1]
    exact h
  · intro i hi
    have h := (tausSym_symm R I c x i (by omega)).symm
    have hm : vectorMirror I i = I - 1 - i := by
      unfold vectorMirror
      rw [if_pos hi]
    rw [hm] at h
    exact h
  · have h := (tausSym_symm R I c x I (by omega)).symm
    have hm : vectorMirror I I = I + 1 := by
      unfold vectorMirror
      rw [if_neg (by omega)]
      omega
    rw [hm] at h
    have e2 : (I + 2) - 2 = I := by omega
    have e1 : (I + 2) - 1 = I + 1 := by omega
    rw [e2, e1]
    exact h

/-- C5 witness: the mirror identities at `R = 7`, `I = 3`, default bounds,
genome `x k = k/100`. -/
theorem claim_C5_witness :
    sensorWeightsSym 7 3 defaultScaleCfg (fun k => (k : ℚ) / 100) (0, 0)
      = sensorWeightsSym 7 3 defaultScaleCfg (fun k => (k : ℚ) / 100) (6, 2)
    ∧ circuitWeightsSym 7 3 defaultScaleCfg (fun k => (k : ℚ) / 100) (0, 1)
      = circuitWeightsSym 7 3 defaultScaleCfg (fun k => (k : ℚ) / 100) (2, 1)
    ∧ circuitWeightsSym 7 3 defaultScaleCfg (fun k => (k : ℚ) / 100) (0, 3)
      = circuitWeightsSym 7 3 defaultScaleCfg (fun k => (k : ℚ) / 100) (2, 4)
    ∧ biasesSym 7 3 defaultScaleCfg (fun k => (k : ℚ) / 100) 0
      = biasesSym 7 3 defaultScaleCfg (fun k => (k : ℚ) / 100) 2
    ∧ biasesSym 7 3 defaultScaleCfg (fun k => (k : ℚ) / 100) 3
      = biasesSym 7 3 defaultScaleCfg (fun k => (k : ℚ) / 100) 4
    ∧ tausSym 7 3 defaultScaleCfg (fun k => (k : ℚ) / 100) 1
      = tausSym 7 3 defaultScaleCfg (fun k => (k : ℚ) / 100) 1 :=
  ⟨(claim_C5 7 3 defaultScaleCfg _).1 0 0 (by norm_num) (by norm_num),
   (claim_C5 7 3 defaultScaleCfg _).2.1 0 1 (by norm_num) (by norm_num),
   (claim_C5 7 3 defaultScaleCfg _).2.2.1 0 0 (by norm_num) (by norm_num),
   (claim_C5 7 3 defaultScaleCfg _).2.2.2.1 0 (by norm_num),
   (claim_C5 7 3 defaultScaleCfg _).2.2.2.2.1,
   (claim_C5 7 3 defaultScaleCfg _).2.2.2.2.2.1 1 (by norm_num)⟩

/-- C6: in validation mode the returned pair is
`(success, caught)` with `caught = 1` exactly when the object span
`[cx - size, cx + size]` overlaps the agent span `[ax - r, ax + r]`, and
`success = 1` exactly when the catch/avoid outcome matches the correct
decision (catch iff the presented diameter exceeds the comparison
diameter). -/
theorem claim_C6 (presented comparison cx size ax radius : ℚ) :
    trialValidationOutcome presented comparison cx size ax radius
      = (if ((cx - size ≤ ax + radius ∧ ax - radius ≤ cx + size)
              ↔ presented > comparison) then 1 else 0,
         if (cx - size ≤ ax + radius ∧ ax - radius ≤ cx + size)
           then 1 else 0) := by
  have hov_not : ¬(cx - size ≤ ax + radius ∧ ax - radius ≤ cx + size) →
      cx - size > ax + radius ∨ cx + size < ax - radius := by
    intro h
    rcases not_and_or.mp h with h1 | h1
    · exact Or.inl (not_le.mp h1)
    · exact Or.inr (not_le.mp h1)
  have hov_yes : (cx - size ≤ ax + radius ∧ ax - radius ≤ cx + size) →
      ¬(cx - size > ax + radius ∨ cx + size < ax - radius) := by
    intro h hc
    rcases hc with hc | hc
    · linarith [h.1]
    · linarith [h.2]
  unfold trialValidationOutcome
  by_cases hpc : presented > comparison <;>
    by_cases hov : cx - size ≤ ax + radius ∧ ax - radius ≤ cx + size
  · rw [if_pos hpc, if_neg (hov_yes hov), if_pos (iff_of_true hov hpc),
      if_pos hov]
  · rw [if_pos hpc, if_pos (hov_not hov), if_neg (fun hiff => hov (hiff.mpr hpc)),
      if_neg hov]
  · rw [if_neg hpc, if_neg (hov_yes hov), if_neg (fun hiff => hpc (hiff.mp hov)),
      if_pos hov]
  · rw [if_neg hpc, if_pos (hov_not hov),
      if_pos ⟨fun h => absurd h hov, fun h => absurd h hpc⟩, if_neg hov]

/-- C7: contrary to the claim, the degenerate reduction is not guarded.
On a `1 × 1` outcome matrix `eval_fitness` silently returns `0` (the loop
body never runs and the final division is by `n - 2 = -1`), and on a
`2 × 2` matrix the final division is by zero — an unguarded
`ZeroDivisionError` (modelled as `none`), not a reported configuration
error. -/
theorem claim_C7_code_bug :
    eval_fitness 1 (fun _ => 0) = some 0
    ∧ eval_fitness 2 (fun _ => 0) = none := by
  constructor
  · unfold eval_fitness
    simp only [Nat.sub_self, List.range'_zero, List.foldlM_nil,
      Option.pure_def, Option.bind_eq_bind, Option.some_bind]
    norm_num
  · unfold eval_fitness
    norm_num [List.range'_zero]

/-- C8: the wrap function returns a value in `[0, b]` for every real input
and bound `b > 0`, is periodic with period `2b`, and composing
`rescale(wrap(x,1), lo, hi, 0, 1)` lands in `[lo, hi]`. -/
theorem claim_C8 (v b : ℚ) (hb : 0 < b) (x lo hi : ℚ) (hlohi : lo ≤ hi) :
    (0 ≤ periodic_boundary_conditions v b
     ∧ periodic_boundary_conditions v b ≤ b)
    ∧ periodic_boundary_conditions (v + 2 * b) b
        = periodic_boundary_conditions v b
    ∧ (lo ≤ rescale_parameter (periodic_boundary_conditions x 1) lo hi 0 1
       ∧ rescale_parameter (periodic_boundary_conditions x 1) lo hi 0 1 ≤ hi) := by
  have key : ∀ w bb : ℚ, 0 < bb →
      0 ≤ periodic_boundary_conditions w bb
      ∧ periodic_boundary_conditions w bb ≤ bb := by
    intro w bb hbb
    unfold periodic_boundary_conditions
    have h1 := pymod_nonneg w (2 * bb) (by linarith)
    have h2 := pymod_lt w (2 * bb) (by linarith)
    have habs : |pymod w (2 * bb) - bb| ≤ bb :=
      abs_le.mpr ⟨by linarith, by linarith⟩
    have habs0 : 0 ≤ |pymod w (2 * bb) - bb| := abs_nonneg _
    exact ⟨by linarith, by linarith⟩
  refine ⟨key v b hb, ?_, ?_⟩
  · unfold periodic_boundary_conditions
    rw [pymod_add_period v (2 * b) (by linarith)]
  · have hw := key x 1 (by norm_num)
    have hre : rescale_parameter (periodic_boundary_conditions x 1) lo hi 0 1
        = (hi - lo) * periodic_boundary_conditions x 1 + lo := by
      unfold rescale_parameter
      ring_nf
    rw [hre]
    constructor
    · nlinarith [hw.1, hw.2]
    · nlinarith [hw.1, hw.2]

/-- C8 witness: the claim at `v = 7`, `b = 2`, `x = 3`, `[lo,hi] = [-16,16]`. -/
theorem claim_C8_witness :
    (0 : ℚ) < 2 ∧ ((-16) : ℚ) ≤ 16
    ∧ ((0 ≤ periodic_boundary_conditions 7 2
        ∧ periodic_boundary_conditions 7 2 ≤ 2)
       ∧ periodic_boundary_conditions (7 + 2 * 2) 2
           = periodic_boundary_conditions 7 2
       ∧ ((-16 : ℚ) ≤ rescale_parameter (periodic_boundary_conditions 3 1) (-16) 16 0 1
          ∧ rescale_parameter (periodic_boundary_conditions 3 1) (-16) 16 0 1 ≤ 16)) :=
  ⟨by norm_num, by norm_num, claim_C8 7 2 (by norm_num) 3 (-16) 16 (by norm_num)⟩

/-- C9: at the transition from phase 1 to phase 2 only the object's
position and size are re-set and the ray state is reset; the controller
state is initialized once at setup and carries over unchanged from the end
of phase 1 into the start of phase 2, as do the agent's position and
velocity. -/
theorem claim_C9 (Ray Nerv : Type) (cfg : TrialCfg) (ext : TrialExt Ray Nerv)
    (presented comparison : ℚ) (fuel : ℕ) :
    (trialSetup cfg ext presented).nerv = ext.initNerv
    ∧ (trialPhase2Start cfg ext presented comparison fuel).nerv
        = (trialPhase1End cfg ext presented fuel).nerv
    ∧ (trialPhase2Start cfg ext presented comparison fuel).agentX
        = (trialPhase1End cfg ext presented fuel).agentX
    ∧ (trialPhase2Start cfg ext presented comparison fuel).agentY
        = (trialPhase1End cfg ext presented fuel).agentY
    ∧ (trialPhase2Start cfg ext presented comparison fuel).velX
        = (trialPhase1End cfg ext presented fuel).velX
    ∧ (trialPhase2Start cfg ext presented comparison fuel).ballX
        = cfg.initial_agent_x
    ∧ (trialPhase2Start cfg ext presented comparison fuel).ballY
        = cfg.initial_agent_y
          - (cfg.agent_radius + cfg.max_ray_length + comparison)
    ∧ (trialPhase2Start cfg ext presented comparison fuel).ballSize
        = comparison / 2
    ∧ (trialPhase2Start cfg ext presented comparison fuel).rays
        = ext.resetRays :=
  ⟨rfl, rfl, rfl, rfl, rfl, rfl, rfl, rfl, rfl⟩

/-- C10: the continuous-mode trial outcome always lies in `[0, 1]` (the
normalized distance is non-negative and clamped at `1` before being
returned either directly or as its complement), and with equal presented
and comparison diameters the avoid branch returns the clamped normalized
distance itself; hence the value returned by the continuous-mode trial is
in `[0, 1]`. -/
theorem claim_C10 (presented comparison cx ax md : ℚ) (hmd : 0 < md) :
    (0 ≤ trialContinuousOutcome presented comparison cx ax md
     ∧ trialContinuousOutcome presented comparison cx ax md ≤ 1)
    ∧ (presented = comparison →
        trialContinuousOutcome presented comparison cx ax md
          = normalizedDistanceClamped cx ax md)
    ∧ (∀ (Ray Nerv : Type) (cfg : TrialCfg) (ext : TrialExt Ray Nerv)
        (f1 f2 : ℕ), cfg.max_distance = md →
        0 ≤ trialContinuous cfg ext presented comparison f1 f2
        ∧ trialContinuous cfg ext presented comparison f1 f2 ≤ 1) := by
  have hnd : ∀ cx' ax' : ℚ, 0 ≤ normalizedDistanceClamped cx' ax' md
      ∧ normalizedDistanceClamped cx' ax' md ≤ 1 := by
    intro cx' ax'
    have h0 : 0 ≤ |cx' - ax'| / md := div_nonneg (abs_nonneg _) hmd.le
    unfold normalizedDistanceClamped
    by_cases h1 : |cx' - ax'| / md > 1
    · rw [if_pos h1]
      norm_num
    · rw [if_neg h1]
      exact ⟨h0, le_of_not_lt h1⟩
  have houter : ∀ p c cx' ax' : ℚ,
      0 ≤ trialContinuousOutcome p c cx' ax' md
      ∧ trialContinuousOutcome p c cx' ax' md ≤ 1 := by
    intro p c cx' ax'
    unfold trialContinuousOutcome
    rcases hnd cx' ax' with ⟨ha, hb⟩
    by_cases hpc : p > c
    · rw [if_pos hpc]
      exact ⟨by linarith, by linarith⟩
    · rw [if_neg hpc]
      exact ⟨ha, hb⟩
  refine ⟨houter presented comparison cx ax, ?_, ?_⟩
  · intro heq
    subst heq
    unfold trialContinuousOutcome
    rw [if_neg (lt_irrefl presented)]
  · intro Ray Nerv cfg ext f1 f2 hcfg
    unfold trialContinuous
    rw [hcfg]
    exact houter presented comparison _ _

/-- C10 witness: the claim at concrete diameters `30, 20`, positions
`100, 40`, and `max_distance = 75`. -/
theorem claim_C10_witness :
    (0 : ℚ) < 75
    ∧ (0 ≤ trialContinuousOutcome 30 20 100 40 75
       ∧ trialContinuousOutcome 30 20 100 40 75 ≤ 1)
    ∧ trialContinuousOutcome 30 30 100 40 75
        = normalizedDistanceClamped 100 40 75 :=
  ⟨by norm_num, (claim_C10 30 20 100 40 75 (by norm_num)).1,
   (claim_C10 30 30 100 40 75 (by norm_num)).2.1 rfl⟩

end Relcat
